import Mathlib

/-!
Verification of the agent orchestration core of the `arcane` terminal client.

The Go source is shallowly embedded below: Go strings are Lean `String`s
(manipulated through their underlying `List Char`, one entry per rune),
Go byte lengths are modelled as rune counts, machine integers are `Nat`/`Int`,
fallible operations return `Option`/`Except`, and the filesystem is an explicit
map `String → Option String`.  Unicode-dependent Go primitives
(`unicode.IsSpace`, `strings.ToLower`) are modelled on the ASCII/Latin-1
range, which covers every character class the orchestration logic tests.
-/

namespace Arcane

/-- Character class of Go `unicode.IsSpace` restricted to Latin-1:
space, `\t`, `\n`, `\v`, `\f`, `\r`, NEL (U+0085) and NBSP (U+00A0). -/
def isUniSpaceB (c : Char) : Bool :=
  c = ' ' || c = '\t' || c = '\n' || c = (Char.ofNat 11) || c = (Char.ofNat 12) ||
  c = '\r' || c = (Char.ofNat 0x85) || c = (Char.ofNat 0xA0)

/-- Character class of `\s` in Go's `regexp` package: `[\t\n\f\r ]`. -/
def isRegexSpaceB (c : Char) : Bool :=
  c = '\t' || c = '\n' || c = (Char.ofNat 12) || c = '\r' || c = ' '

/-- Leading-whitespace strip, the first half of Go `strings.TrimSpace`. -/
def trimLeftL (l : List Char) : List Char := l.dropWhile isUniSpaceB

/-- Trailing-whitespace strip, the second half of Go `strings.TrimSpace`. -/
def trimRightL (l : List Char) : List Char := (l.reverse.dropWhile isUniSpaceB).reverse

/-- Go `strings.TrimSpace` on rune lists. -/
def goTrimSpaceL (l : List Char) : List Char := trimRightL (trimLeftL l)

/-- Go `strings.TrimSpace`. -/
def goTrimSpace (s : String) : String := String.mk (goTrimSpaceL s.data)

/-- Go `strings.Split(s, sep)` for a single-rune separator: splits on every
occurrence of `sep`; the empty string yields `[""]`. -/
def splitChar (sep : Char) : List Char → List (List Char)
  | [] => [[]]
  | c :: cs =>
    if c = sep then [] :: splitChar sep cs
    else
      match splitChar sep cs with
      | [] => [[c]]
      | l :: ls => (c :: l) :: ls

/-- Go `strings.HasPrefix` on rune lists (`hasPre pre s`). -/
def hasPre : List Char → List Char → Bool
  | [], _ => true
  | _ :: _, [] => false
  | p :: ps, c :: cs => p = c && hasPre ps cs

/-- Go `strings.Contains` on rune lists (`containsL s substr`). -/
def containsL (s pat : List Char) : Bool :=
  match s with
  | [] => hasPre pat []
  | _ :: t => hasPre pat s || containsL t pat

/-- Go `strings.Contains`. -/
def containsS (s pat : String) : Bool := containsL s.data pat.data

/-- Counting loop of Go `strings.Count` for a non-empty pattern:
non-overlapping occurrences, scanning left to right.  The structural `fuel`
argument (the scan consumes at least one rune per step, so `s.length`
suffices) keeps the recursion kernel-reducible. -/
def countAux (pat : List Char) : Nat → List Char → Nat
  | 0, _ => 0
  | _, [] => 0
  | f + 1, c :: t =>
    if hasPre pat (c :: t) then 1 + countAux pat f (t.drop (pat.length - 1))
    else countAux pat f t

/-- Go `strings.Count`: for an empty pattern it returns rune count + 1. -/
def countL (s pat : List Char) : Nat :=
  if pat = [] then s.length + 1 else countAux pat s.length s

/-- Replacement loop of Go `strings.Replace(s, pat, new, 1)` for non-empty `pat`. -/
def replaceFirstAux (pat new : List Char) (s : List Char) : List Char :=
  match s with
  | [] => []
  | c :: t =>
    if hasPre pat (c :: t) then new ++ t.drop (pat.length - 1)
    else c :: replaceFirstAux pat new t

/-- Go `strings.Replace(s, pat, new, 1)`; an empty pattern inserts `new` once
at the front, as Go does. -/
def goReplaceFirstL (s pat new : List Char) : List Char :=
  if pat = [] then new ++ s else replaceFirstAux pat new s

/-- Go `strings.ReplaceAll` for an empty pattern: `new` before every rune and
once at the end. -/
def replaceAllEmpty (new : List Char) : List Char → List Char
  | [] => new
  | c :: t => new ++ c :: replaceAllEmpty new t

/-- Replacement loop of Go `strings.ReplaceAll` for a non-empty pattern. -/
def replaceAllAux (pat new : List Char) (s : List Char) : List Char :=
  match s with
  | [] => []
  | c :: t =>
    if hasPre pat (c :: t) then new ++ replaceAllAux pat new (t.drop (pat.length - 1))
    else c :: replaceAllAux pat new t
termination_by s.length
decreasing_by
  all_goals simp_wf
  all_goals omega

/-- Go `strings.ReplaceAll`. -/
def goReplaceAllL (s pat new : List Char) : List Char :=
  if pat = [] then replaceAllEmpty new s else replaceAllAux pat new s

/-- Go `strings.TrimPrefix` on rune lists. -/
def chopTag (l tag : List Char) : List Char :=
  if hasPre tag l then l.drop tag.length else l

/-- Go `strings.ToLower`, modelled on the ASCII range. -/
def goToLower (s : String) : String := String.mk (s.data.map Char.toLower)

/-- Go `strings.TrimRight(s, "\n")`: strip every trailing newline. -/
def trimRightNl (s : String) : String :=
  String.mk ((s.data.reverse.dropWhile (fun c => c = '\n')).reverse)

/-- JSON insignificant whitespace per RFC 8259, as accepted by Go `encoding/json`. -/
def isJsonWS (c : Char) : Bool := c = ' ' || c = '\t' || c = '\n' || c = '\r'

/-- ASCII decimal digit test. -/
def isDigitB (c : Char) : Bool := '0' ≤ c && c ≤ '9'

/-- ASCII hexadecimal digit test. -/
def isHexB (c : Char) : Bool :=
  isDigitB c || ('a' ≤ c && c ≤ 'f') || ('A' ≤ c && c ≤ 'F')

/-- Consume the remainder of a JSON string literal (the opening quote already
read), validating escapes as Go `encoding/json` does; returns the unconsumed
rest on success. -/
def jsonStrRest : List Char → Option (List Char)
  | [] => none
  | '"' :: r => some r
  | '\\' :: e :: r =>
    if e = '"' || e = '\\' || e = '/' || e = 'b' || e = 'f' || e = 'n' || e = 'r' || e = 't' then
      jsonStrRest r
    else if e = 'u' then
      match r with
      | a :: b :: c :: d :: r2 =>
        if isHexB a && isHexB b && isHexB c && isHexB d then jsonStrRest r2 else none
      | _ => none
    else none
  | c :: r => if c.toNat < 0x20 then none else jsonStrRest r

/-- Consume the optional exponent part of a JSON number. -/
def jsonExpRest (s : List Char) : Option (List Char) :=
  match s with
  | 'e' :: r | 'E' :: r =>
    let r1 := match r with
      | '+' :: r2 => r2
      | '-' :: r2 => r2
      | _ => r
    match r1 with
    | c :: _ => if isDigitB c then some (r1.dropWhile isDigitB) else none
    | [] => none
  | _ => some s

/-- Consume the optional fraction part of a JSON number, then the exponent. -/
def jsonFracRest (s : List Char) : Option (List Char) :=
  match s with
  | '.' :: r =>
    match r with
    | c :: _ => if isDigitB c then jsonExpRest (r.dropWhile isDigitB) else none
    | [] => none
  | _ => jsonExpRest s

/-- Consume one JSON number (Go syntax: optional minus, `0` or a nonzero-led
integer part, optional fraction, optional exponent). -/
def jsonNumRest (s : List Char) : Option (List Char) :=
  let s1 := match s with
    | '-' :: r => r
    | _ => s
  match s1 with
  | '0' :: r => jsonFracRest r
  | c :: r => if '1' ≤ c && c ≤ '9' then jsonFracRest (r.dropWhile isDigitB) else none
  | [] => none

mutual

/-- Consume one JSON value, fuel-bounded; mirrors the grammar Go
`encoding/json.Unmarshal` accepts.  Returns the unconsumed rest. -/
def jsonVal : Nat → List Char → Option (List Char)
  | 0, _ => none
  | f + 1, s =>
    match s.dropWhile isJsonWS with
    | 'n' :: 'u' :: 'l' :: 'l' :: r => some r
    | 't' :: 'r' :: 'u' :: 'e' :: r => some r
    | 'f' :: 'a' :: 'l' :: 's' :: 'e' :: r => some r
    | '"' :: r => jsonStrRest r
    | '{' :: r =>
      (match r.dropWhile isJsonWS with
       | '}' :: r2 => some r2
       | r2 => jsonMembers f r2)
    | '[' :: r =>
      (match r.dropWhile isJsonWS with
       | ']' :: r2 => some r2
       | r2 => jsonElems f r2)
    | s1 => jsonNumRest s1

/-- Consume the members of a JSON object after `{` (first member expected at
the head), through the closing `}`. -/
def jsonMembers : Nat → List Char → Option (List Char)
  | 0, _ => none
  | f + 1, s =>
    match s with
    | '"' :: r =>
      match jsonStrRest r with
      | none => none
      | some r1 =>
        match r1.dropWhile isJsonWS with
        | ':' :: r2 =>
          match jsonVal f r2 with
          | none => none
          | some r3 =>
            match r3.dropWhile isJsonWS with
            | ',' :: r4 => jsonMembers f (r4.dropWhile isJsonWS)
            | '}' :: r4 => some r4
            | _ => none
        | _ => none
    | _ => none

/-- Consume the elements of a JSON array after `[` (first element expected),
through the closing `]`. -/
def jsonElems : Nat → List Char → Option (List Char)
  | 0, _ => none
  | f + 1, s =>
    match jsonVal f s with
    | none => none
    | some r1 =>
      match r1.dropWhile isJsonWS with
      | ',' :: r2 => jsonElems f r2
      | ']' :: r2 => some r2
      | _ => none

end

/-- Top-level classification of a decoded JSON document. -/
inductive GoJsonKind where
  | objK
  | arrK
  | scalarK
deriving DecidableEq

/-- Go `json.Unmarshal(data, &v)` with `v : any`, abstracted to success plus
the top-level kind of the decoded value: `none` means Unmarshal returns an
error (malformed document or trailing non-whitespace). -/
def goUnmarshalKind (s : List Char) : Option GoJsonKind :=
  match jsonVal (s.length + 1) s with
  | none => none
  | some rest =>
    if rest.dropWhile isJsonWS = [] then
      match s.dropWhile isJsonWS with
      | '{' :: _ => some .objK
      | '[' :: _ => some .arrK
      | _ => some .scalarK
    else none

/-- `defaultReadLimit` from the tools package: default max lines to read. -/
def defaultReadLimit : Nat := 200

/-- `maxLineWidth` from the tools package: runes kept per line before `...`. -/
def maxLineWidth : Nat := 500

/-- Right-justified width-4 decimal rendering, Go `fmt.Sprintf("%4d", n)`. -/
def pad4 (n : Nat) : String :=
  let s := toString n
  if s.length < 4 then String.mk (List.replicate (4 - s.length) ' ') ++ s else s

/-- Arguments of the `edit` tool after Go's type-asserted extraction from the
JSON object; a missing `all` key yields `false`, missing strings yield `""`. -/
structure EditArgs where
  path : String
  old : String
  new : String
  all : Bool

/-- `ToolEdit` from the tools package, against an explicit filesystem
`fs : String → Option String` (`none` = `os.ReadFile` error).  Returns the
tool's text result (or a Go-level error) together with the filesystem after
the call; `os.WriteFile` is modelled as always succeeding. -/
def ToolEdit (fs : String → Option String) (a : EditArgs) :
    Except String String × (String → Option String) :=
  match fs a.path with
  | none => (Except.error ("open " ++ a.path ++ ": no such file or directory"), fs)
  | some text =>
    if ¬ containsS text a.old then (Except.ok "error: old_string not found", fs)
    else
      let count := countL text.data a.old.data
      if ¬ a.all ∧ 1 < count then
        (Except.ok ("error: old_string appears " ++ toString count ++
          " times, must be unique (use all=true)"), fs)
      else
        let replacement :=
          if a.all then String.mk (goReplaceAllL text.data a.old.data a.new.data)
          else String.mk (goReplaceFirstL text.data a.old.data a.new.data)
        (Except.ok "ok", fun q => if q = a.path then some replacement else fs q)

/-- Arguments of the `read` tool after Go's extraction: `offset` and `limit`
arrive as numbers (0 when absent) and are truncated to machine integers. -/
structure ReadArgs where
  path : String
  offset : Int
  limit : Int

/-- `ToolRead` from the tools package against an explicit filesystem: splits
the file on newlines, clamps `offset` into `[0, #lines]`, applies the default
line cap when `limit` is zero, renders `%4d| line` rows (long lines cut at
`maxLineWidth` runes), and appends a continuation hint when lines remain.
When the clamped end index falls below the start index (possible only with a
negative `limit`), the Go slice expression `lines[start:end]` panics; the
panic is modelled as a Go-level error. -/
def ToolRead (fs : String → Option String) (a : ReadArgs) : Except String String :=
  match fs a.path with
  | none => Except.error ("open " ++ a.path ++ ": no such file or directory")
  | some data =>
    let lines := splitChar '\n' data.data
    let totalLines := lines.length
    let start1 : Int := if a.offset < 0 then 0 else a.offset
    let start : Int := if (totalLines : Int) < start1 then (totalLines : Int) else start1
    let limit : Int := if a.limit = 0 then (defaultReadLimit : Int) else a.limit
    let endI : Int := start + limit
    let endC : Int := if (totalLines : Int) < endI then (totalLines : Int) else endI
    if endC < start then
      Except.error "runtime error: slice bounds out of range"
    else
    let selected := (lines.drop start.toNat).take (endC - start).toNat
    let body := String.join (selected.enum.map fun p =>
      let line2 :=
        if maxLineWidth < p.2.length then String.mk (p.2.take maxLineWidth) ++ "..."
        else String.mk p.2
      pad4 (start.toNat + p.1 + 1) ++ "| " ++ line2 ++ "\n")
    let remaining : Int := (totalLines : Int) - endC
    if 0 < remaining then
      Except.ok (body ++ "\n[... " ++ toString remaining ++ " more lines. Use offset=" ++
        toString endC ++ " to continue reading]\n")
    else Except.ok body

/-- `isKnownToolName` from the orchestrator: the seven tool names. -/
def isKnownToolName (name : String) : Bool :=
  name = "ls" || name = "read" || name = "write" || name = "edit" ||
  name = "glob" || name = "grep" || name = "bash"

/-- ASCII letter test, the `[a-zA-Z]` class of `inlineToolCallRE`. -/
def isAlphaB (c : Char) : Bool := ('a' ≤ c && c ≤ 'z') || ('A' ≤ c && c ≤ 'Z')

/-- The `[a-zA-Z0-9_]` class of `inlineToolCallRE`. -/
def isIdentCharB (c : Char) : Bool := isAlphaB c || isDigitB c || c = '_'

/-- Index of the `}` closing the greedy `(\{.*\})` group of `inlineToolCallRE`
inside the text after the opening `{`: the largest position, before any
newline (`.` does not cross lines in Go regexp), holding `}` and followed only
by `\s` characters. -/
def findCloseIdx (r2 : List Char) : Option Nat :=
  ((List.range ((r2.takeWhile fun c => c != '\n').length)).filter fun i =>
      (r2.getD i ' ' == '}') && (r2.drop (i + 1)).all isRegexSpaceB).getLast?

/-- Submatch extraction of `inlineToolCallRE`, the Go regexp
`^\s*([a-zA-Z][a-zA-Z0-9_]*)\s*(\{.*\})\s*$`: leading `\s*`, a maximal
identifier, `\s*`, then the greedy single-line brace group with only `\s`
after it.  Returns the two capture groups. -/
def matchInline (s : List Char) : Option (List Char × List Char) :=
  match s.dropWhile isRegexSpaceB with
  | [] => none
  | c :: rest =>
    if isAlphaB c then
      let identTail := rest.takeWhile isIdentCharB
      let afterIdent := rest.dropWhile isIdentCharB
      match afterIdent.dropWhile isRegexSpaceB with
      | '{' :: r2 =>
        match findCloseIdx r2 with
        | some i => some (c :: identTail, '{' :: r2.take (i + 1))
        | none => none
      | _ => none
    else none

/-- `parseInlineToolCall` from the orchestrator: trims the content, applies
`inlineToolCallRE`, requires a known tool name and an argument payload that
`json.Unmarshal` decodes to a JSON object. -/
def parseInlineToolCall (content : String) : Option (String × String) :=
  let t := goTrimSpace content
  if t = "" then none
  else
    match matchInline t.data with
    | none => none
    | some (nameL, argsL) =>
      let name := goTrimSpace (String.mk nameL)
      let argsJSON := goTrimSpace (String.mk argsL)
      if ¬ isKnownToolName name then none
      else
        match goUnmarshalKind argsJSON.data with
        | some GoJsonKind.objK => some (name, argsJSON)
        | _ => none

/-- `toolExecRecord` from the orchestrator: the per-turn append-only log of
executed tool calls. -/
structure toolExecRecord where
  name : String
  args : String
  result : String
deriving DecidableEq

/-- `lastToolResult`: the result of the most recent execution of `toolName`
in this turn, scanning the records from the end. -/
def lastToolResult (execs : List toolExecRecord) (toolName : String) : Option String :=
  (execs.reverse.find? fun r => r.name == toolName).map toolExecRecord.result

/-- `formatLsResultAsAnswer` from the orchestrator: renders a raw `ls` result
as a bulleted listing headed `Entries in the current directory:`, falling back
to a literal empty-directory sentence. -/
def formatLsResultAsAnswer (lsResult : String) : String :=
  let r := goTrimSpace lsResult
  if r = "" ∨ r = "(empty directory)" then "The current directory is empty."
  else
    let lines := splitChar '\n' r.data
    let items := lines.filterMap fun line =>
      let l1 := goTrimSpaceL line
      if l1 = [] then none
      else
        let l2 := chopTag l1 ("[FILE]".data)
        let l3 := chopTag l2 ("[DIR]".data)
        let l4 := goTrimSpaceL l3
        if l4 = [] then none else some l4
    if items = [] then "The current directory is empty."
    else
      trimRightNl ("Entries in the current directory:\n" ++
        String.join (items.map fun it => "- " ++ String.mk it ++ "\n"))

/-- The emptiness-claim test inside `coerceAgentFinalContent`, applied to the
lowercased trimmed final text. -/
def claimsNoEntries (low : String) : Bool :=
  containsS low "no files" || containsS low "directory appears to be empty" ||
  containsS low "directory is empty"

/-- `coerceAgentFinalContent` from the orchestrator: replaces an empty,
inline-tool-call-shaped, or emptiness-claiming final text by the rendering of
the turn's last `ls` result.  A pure function of the final text and the
turn's execution records. -/
def coerceAgentFinalContent (content : String) (execs : List toolExecRecord) : String :=
  let trimmed := goTrimSpace content
  if trimmed = "" then
    match lastToolResult execs "ls" with
    | some ls => formatLsResultAsAnswer ls
    | none => content
  else if (parseInlineToolCall trimmed).isSome then
    match lastToolResult execs "ls" with
    | some ls => formatLsResultAsAnswer ls
    | none => content
  else
    let low := goToLower trimmed
    if claimsNoEntries low then
      match lastToolResult execs "ls" with
      | some ls =>
        let ls2 := goTrimSpace ls
        if ls2 ≠ "" ∧ ls2 ≠ "(empty directory)" then formatLsResultAsAnswer ls2
        else content
      | none => content
    else content

/-- Message roles of the completion protocol. -/
inductive Role where
  | system
  | user
  | assistant
  | tool
deriving DecidableEq

/-- A structured tool-call request carried by an assistant message. -/
structure ToolCall where
  id : String
  name : String
  args : String
deriving DecidableEq

/-- A chat message as the orchestrator stores it: the union of the openai-go
message params.  `tool_call_id` is meaningful only for `tool` messages (it is
serialized only for them), `tool_calls` only for `assistant` messages. -/
structure Msg where
  role : Role
  content : String
  tool_call_id : String
  tool_calls : List ToolCall
deriving DecidableEq

/-- `openai.SystemMessage`. -/
def SystemMessage (s : String) : Msg := ⟨Role.system, s, "", []⟩

/-- `openai.UserMessage`. -/
def UserMessage (s : String) : Msg := ⟨Role.user, s, "", []⟩

/-- `openai.AssistantMessage` (plain text, no tool calls). -/
def AssistantMessage (s : String) : Msg := ⟨Role.assistant, s, "", []⟩

/-- `openai.ToolMessage id content`. -/
def ToolMessage (id content : String) : Msg := ⟨Role.tool, content, id, []⟩

/-- `recentMessagesKeep` constant: trailing messages kept intact. -/
def recentMessagesKeep : Nat := 6

/-- `charsPerToken` constant of the token estimate. -/
def charsPerToken : Nat := 4

/-- `truncatedResultSize` constant: max chars of a kept tool result. -/
def truncatedResultSize : Nat := 500

/-- `maxToolIterations` constant: hard ceiling of the agent loop. -/
def maxToolIterations : Nat := 15

/-- `defaultContextTokens` constant: fallback context budget. -/
def defaultContextTokens : Nat := 80000

/-- Rendering of one structured tool call inside `json.Marshal` of an
assistant message (string escaping not modelled; only lengths feed the
chars-per-token heuristic). -/
def serializeToolCall (tc : ToolCall) : String :=
  "\x7b\"id\":\"" ++ tc.id ++ "\",\"type\":\"function\",\"function\":\x7b\"name\":\"" ++
  tc.name ++ "\",\"arguments\":\"" ++ tc.args ++ "\"\x7d\x7d"

/-- `json.Marshal` of a message param, as used by `estimateMessageTokens` and
by the tool-message detection of `compactHistory`: a `tool_call_id` field is
present exactly for `tool` messages, `tool_calls` only when non-empty. -/
def serializeMsg (m : Msg) : String :=
  let roleStr := match m.role with
    | Role.system => "system"
    | Role.user => "user"
    | Role.assistant => "assistant"
    | Role.tool => "tool"
  "\x7b\"content\":\"" ++ m.content ++ "\",\"role\":\"" ++ roleStr ++ "\"" ++
  (if m.role = Role.tool then ",\"tool_call_id\":\"" ++ m.tool_call_id ++ "\"" else "") ++
  (if m.tool_calls = [] then ""
   else ",\"tool_calls\":[" ++ String.intercalate "," (m.tool_calls.map serializeToolCall) ++ "]") ++
  "\x7d"

/-- `estimateTokens`: rough token count, character count over `charsPerToken`. -/
def estimateTokens (s : String) : Nat := s.length / charsPerToken

/-- `estimateMessageTokens`: estimate on the marshalled message. -/
def estimateMessageTokens (m : Msg) : Nat := estimateTokens (serializeMsg m)

/-- `estimateHistoryTokens`: sum of the per-message estimates. -/
def estimateHistoryTokens (h : List Msg) : Nat := (h.map estimateMessageTokens).sum

/-- `truncateToolResult`: shortens a tool result over the size threshold to
`[<name>: <n> lines] <first truncatedResultSize chars, trimmed>...`. -/
def truncateToolResult (toolName result : String) : String :=
  let lineCount := (splitChar '\n' result.data).length
  if result.length ≤ truncatedResultSize then result
  else
    let preview := String.mk (result.data.take truncatedResultSize)
    "[" ++ toolName ++ ": " ++ toString lineCount ++ " lines] " ++ goTrimSpace preview ++ "..."

/-- The middle-window rewrite step of `compactHistory`: a `tool` message (the
marshalled form carries a `tool_call_id` key exactly then) whose content
exceeds `truncatedResultSize` is rebuilt as a truncated `ToolMessage`; every
other message passes through unchanged. -/
def compactMiddleMessage (msg : Msg) : Msg :=
  if msg.role = Role.tool ∧ truncatedResultSize < msg.content.length then
    ToolMessage msg.tool_call_id (truncateToolResult "tool" msg.content)
  else msg

/-- `compactHistory`: identity under the token budget or for short histories;
otherwise keeps the first message, rewrites the strict middle through
`compactMiddleMessage`, and keeps the last `recentMessagesKeep` messages. -/
def compactHistory (history : List Msg) (maxTokens : Nat) : List Msg :=
  if estimateHistoryTokens history < maxTokens then history
  else if history.length ≤ recentMessagesKeep + 1 then history
  else
    let middleEnd := history.length - recentMessagesKeep
    history.take 1 ++ ((history.drop 1).take (middleEnd - 1)).map compactMiddleMessage ++
      history.drop middleEnd

/-- The single choice of a completion response: content plus structured tool
calls.  Errors and zero-choice responses abort the turn before any behavior
claimed below, so the client is modelled as total. -/
structure MResponse where
  content : String
  toolCalls : List ToolCall
deriving DecidableEq

/-- Outcome of an agent-mode turn: final content, the turn's execution
records, the stored history, and (instrumentation) the number of completion
client calls made. -/
structure AgentResult where
  content : String
  execs : List toolExecRecord
  history : List Msg
  clientCalls : Nat
deriving DecidableEq

/-- The assistant message appended each iteration: the response message with
its content cleared when it carries structured tool calls or matches the
inline tool-call pattern. -/
def assistantMsgOf (resp : MResponse) : Msg :=
  { role := Role.assistant,
    content :=
      if resp.toolCalls ≠ [] ∨ (parseInlineToolCall resp.content).isSome then ""
      else resp.content,
    tool_call_id := "",
    tool_calls := resp.toolCalls }

/-- The `Tool` messages appended by executing an iteration's structured tool
calls in request order (`execT` is the sandbox `tools.ExecuteTool`, with a
Go-level error already captured as `error: <detail>` text). -/
def iterToolMsgs (execT : String → String → String) (resp : MResponse) : List Msg :=
  resp.toolCalls.map fun tc => ToolMessage tc.id (execT tc.name tc.args)

/-- The execution records appended for an iteration's structured tool calls,
forwarded verbatim from the response. -/
def iterExecRecs (execT : String → String → String) (resp : MResponse) : List toolExecRecord :=
  resp.toolCalls.map fun tc => ⟨tc.name, tc.args, execT tc.name tc.args⟩

/-- The truncation notice appended when the iteration ceiling is reached. -/
def stoppedNotice : String :=
  "\n\n*[Stopped after " ++ toString maxToolIterations ++ " tool iterations]*"

/-- The agent-mode loop of `sendMessage`: compact, call the client, append the
(possibly cleared) assistant message, then either stop at the iteration
ceiling with the truncation notice, execute structured or inline tool calls
and continue, or finalize through `coerceAgentFinalContent`.  `fuel` counts
the completion calls still permitted, `maxToolIterations - iteration` for the
Go loop counter read before its `iteration++`; the post-increment ceiling
test `iteration >= maxToolIterations` is thus `fuel ≤ 1` here, and the loop
is entered with `fuel = maxToolIterations`. -/
def agentLoop (client : List Msg → MResponse) (execT : String → String → String)
    (maxTokens : Nat) (fuel : Nat) (history : List Msg)
    (toolExecs : List toolExecRecord) (calls : Nat) : AgentResult :=
  let history1 := compactHistory history maxTokens
  let resp := client history1
  let inlineRes := parseInlineToolCall resp.content
  let history2 := history1 ++ [assistantMsgOf resp]
  match fuel with
  | 0 | 1 =>
    let content :=
      if resp.toolCalls ≠ [] ∨ inlineRes.isSome then resp.content ++ stoppedNotice
      else resp.content
    { content := coerceAgentFinalContent content toolExecs,
      execs := toolExecs, history := history2, clientCalls := calls + 1 }
  | f + 2 =>
    if resp.toolCalls ≠ [] then
      agentLoop client execT maxTokens (f + 1) (history2 ++ iterToolMsgs execT resp)
        (toolExecs ++ iterExecRecs execT resp) (calls + 1)
    else
      match inlineRes with
      | some (inName, inArgs) =>
        agentLoop client execT maxTokens (f + 1)
          (history2 ++ [AssistantMessage ("Tool " ++ inName ++ " result:\n" ++ execT inName inArgs)])
          (toolExecs ++ [⟨inName, inArgs, execT inName inArgs⟩]) (calls + 1)
      | none =>
        { content := coerceAgentFinalContent resp.content toolExecs,
          execs := toolExecs, history := history2, clientCalls := calls + 1 }

/-- The agent-mode branch of `sendMessage`: system prompt prepended, prior
history and the user message appended, the loop run with the full iteration
budget, and the system message stripped from the stored history. -/
def sendMessageAgent (client : List Msg → MResponse) (execT : String → String → String)
    (maxTokens : Nat) (priorHistory : List Msg) (systemPrompt userMessage : String) :
    AgentResult :=
  let history := SystemMessage systemPrompt :: (priorHistory ++ [UserMessage userMessage])
  let r := agentLoop client execT maxTokens maxToolIterations history [] 0
  { r with history := r.history.drop 1 }

/-! Supporting lemmas. -/

theorem containsL_nil_pat (s : List Char) : containsL s [] = true := by
  cases s <;> simp [containsL, hasPre]

theorem countAux_pos_contains (pat : List Char) :
    ∀ (f : Nat) (s : List Char), 0 < countAux pat f s → containsL s pat = true := by
  intro f
  induction f with
  | zero => intro s h; simp [countAux] at h
  | succ f ih =>
    intro s h
    cases s with
    | nil => simp [countAux] at h
    | cons c t =>
      by_cases hp : hasPre pat (c :: t) = true
      · simp only [containsL]
        simp [hp]
      · rw [countAux, if_neg hp] at h
        simp only [containsL]
        rw [ih t h]
        simp

theorem count_two_contains (s pat : List Char) (h : 2 ≤ countL s pat) :
    containsL s pat = true := by
  by_cases hpat : pat = []
  · rw [hpat]; exact containsL_nil_pat s
  · unfold countL at h
    rw [if_neg hpat] at h
    exact countAux_pos_contains pat s.length s (by omega)

theorem splitChar_ne_nil (sep : Char) (l : List Char) : splitChar sep l ≠ [] := by
  cases l with
  | nil => simp [splitChar]
  | cons c cs =>
    rw [splitChar]
    split
    · simp
    · split <;> simp

theorem splitChar_length_pos (sep : Char) (l : List Char) : 0 < (splitChar sep l).length :=
  List.length_pos.mpr (splitChar_ne_nil sep l)

theorem compactHistory_under_budget (X : List Msg) (b : Nat)
    (hb : estimateHistoryTokens X < b) : compactHistory X b = X := by
  unfold compactHistory
  rw [if_pos hb]

/-! Claim theorems. -/

/-- Claim C3: a history whose estimated token cost is under the budget is
returned by `compactHistory` unchanged, and so is any history of at most
`recentMessagesKeep + 1` messages, regardless of estimated cost. -/
theorem compact_identity_under_budget (h : List Msg) (b : Nat) :
    (estimateHistoryTokens h < b → compactHistory h b = h) ∧
    (h.length ≤ recentMessagesKeep + 1 → compactHistory h b = h) := by
  constructor
  · exact compactHistory_under_budget h b
  · intro hl
    by_cases hb : estimateHistoryTokens h < b
    · exact compactHistory_under_budget h b hb
    · unfold compactHistory
      rw [if_neg hb, if_pos hl]

/-- Witness for C3 at a concrete one-message history. -/
theorem compact_identity_under_budget_wit :
    estimateHistoryTokens [UserMessage "hi"] < 80000 ∧
      compactHistory [UserMessage "hi"] 80000 = [UserMessage "hi"] :=
  ⟨by decide, (compact_identity_under_budget [UserMessage "hi"] 80000).1 (by decide)⟩

/-- Claim C5 (amended): `compactHistory` is idempotent whenever its result is
under the token budget, or when it returned its input unchanged; full
idempotence fails (see the counterexample) because a history still over
budget after compaction gets its already-truncated middle tool results
truncated again. -/
theorem compact_idempotent_when_under_budget (h : List Msg) (b : Nat)
    (hcond : estimateHistoryTokens (compactHistory h b) < b ∨ compactHistory h b = h) :
    compactHistory (compactHistory h b) b = compactHistory h b := by
  rcases hcond with hb | he
  · exact compactHistory_under_budget (compactHistory h b) b hb
  · rw [he]
    exact he

/-- Witness for the amended C5 at a concrete history. -/
theorem compact_idempotent_when_under_budget_wit :
    compactHistory (compactHistory [UserMessage "hi"] 80000) 80000 =
      compactHistory [UserMessage "hi"] 80000 :=
  compact_idempotent_when_under_budget [UserMessage "hi"] 80000 (Or.inl (by decide))

/-- A 501-character tool result in the middle window of an 8-message history. -/
def bigToolContent : String := String.mk (List.replicate 501 'a')

/-- An 8-message history whose middle contains an oversized tool result. -/
def hBig : List Msg :=
  [UserMessage "task", ToolMessage "1" bigToolContent, UserMessage "m2",
   UserMessage "m3", UserMessage "m4", UserMessage "m5", UserMessage "m6", UserMessage "m7"]

set_option maxRecDepth 20000 in
set_option maxHeartbeats 1000000 in
/-- Claim C5 counterexample: with a budget of 1 token the history stays over
budget after compaction, so a second `compactHistory` truncates the rewritten
tool result again and the composite differs — `Compact` is not idempotent. -/
theorem compact_not_idempotent_cex :
    compactHistory (compactHistory hBig 1) 1 ≠ compactHistory hBig 1 := by decide

/-- Claim C9: on a file containing `old` two or more times (in the
non-overlapping sense of Go `strings.Count`, which produces the reported
number), `edit` without `all` returns the `appears N times` text as an
ordinary result (no Go-level error) and leaves the filesystem unchanged; on a
file not containing `old` it likewise returns the `not found` text and
changes nothing. -/
theorem edit_nonunique_and_notfound_errors (fs : String → Option String)
    (p old new content : String) (hread : fs p = some content) :
    (2 ≤ countL content.data old.data →
      ToolEdit fs ⟨p, old, new, false⟩ =
        (Except.ok ("error: old_string appears " ++ toString (countL content.data old.data) ++
          " times, must be unique (use all=true)"), fs)) ∧
    (containsS content old = false →
      ToolEdit fs ⟨p, old, new, false⟩ = (Except.ok "error: old_string not found", fs)) := by
  constructor
  · intro hcnt
    have hcont : containsS content old = true := count_two_contains _ _ hcnt
    simp only [ToolEdit, hread, hcont]
    simp only [not_true_eq_false, if_false]
    rw [if_pos]
    constructor
    · simp
    · omega
  · intro hncont
    simp only [ToolEdit, hread, hncont]
    simp

/-- Witness for C9: the file `"abab"` with `old = "ab"`. -/
theorem edit_nonunique_and_notfound_errors_wit :
    ToolEdit (fun q => if q = "f.txt" then some "abab" else none) ⟨"f.txt", "ab", "x", false⟩ =
      (Except.ok "error: old_string appears 2 times, must be unique (use all=true)",
       fun q => if q = "f.txt" then some "abab" else none) :=
  (edit_nonunique_and_notfound_errors _ "f.txt" "ab" "x" "abab" (by decide)).1 (by decide)

/-- Claim C10 (amended): for a non-negative `limit` argument, reading with an
offset at or past the file's newline-separated line count succeeds with the
empty string — the offset is clamped to the line count, the selected range is
empty, and no continuation hint is emitted.  With a negative `limit` the call
fails instead: the Go slice `lines[start:end]` panics (see the
counterexample), so the claim's unrestricted `rather than failing` is wrong
there. -/
theorem read_offset_past_end_empty (fs : String → Option String) (p : String)
    (off lim : Int) (data : String) (hread : fs p = some data) (hlim : 0 ≤ lim)
    (hoff : ((splitChar '\n' data.data).length : Int) ≤ off) :
    ToolRead fs ⟨p, off, lim⟩ = Except.ok "" := by
  have hpos : 0 < (splitChar '\n' data.data).length := splitChar_length_pos '\n' data.data
  simp only [ToolRead, hread]
  simp only [defaultReadLimit]
  split_ifs <;> try omega
  all_goals try
    (have hoe : off = ((splitChar '\n' data.data).length : Int) := by omega
     subst hoe)
  all_goals simp [Int.sub_self]
  all_goals rfl

/-- Witness for C10: a two-line file read at offset 2. -/
theorem read_offset_past_end_empty_wit :
    ToolRead (fun q => if q = "a.txt" then some "x\ny" else none) ⟨"a.txt", 2, 0⟩ =
      Except.ok "" :=
  read_offset_past_end_empty _ "a.txt" 2 0 "x\ny" (by decide) (by decide) (by decide)

/-- Claim C10 counterexample: reading a two-line file at offset 2 with
`limit = -1` does not return the empty string without error — the clamped end
index falls below the start index and the slice expression panics, so the
call fails. -/
theorem read_negative_limit_panics_cex :
    ((splitChar '\n' ("x\ny" : String).data).length : Int) ≤ 2 ∧
    ToolRead (fun q => if q = "b.txt" then some "x\ny" else none) ⟨"b.txt", 2, -1⟩ =
      Except.error "runtime error: slice bounds out of range" ∧
    ToolRead (fun q => if q = "b.txt" then some "x\ny" else none) ⟨"b.txt", 2, -1⟩ ≠
      Except.ok "" := by
  refine ⟨by decide, rfl, ?_⟩
  intro h
  rw [show ToolRead (fun q => if q = "b.txt" then some "x\ny" else none) ⟨"b.txt", 2, -1⟩ =
      Except.error "runtime error: slice bounds out of range" from rfl] at h
  exact Except.noConfusion h

/-- Claim C4: on a history at or over budget with more than
`recentMessagesKeep + 1` messages, `compactHistory` preserves the message
count and order: index 0 and the last `recentMessagesKeep` indices are
returned unchanged, and each strict-middle index is rewritten by
`compactMiddleMessage`, which changes only `tool` messages whose content
exceeds `truncatedResultSize` and is the identity on every other message. -/
theorem compact_middle_window_shape (h : List Msg) (b : Nat)
    (hb : ¬ estimateHistoryTokens h < b) (hl : recentMessagesKeep + 1 < h.length) :
    (compactHistory h b).length = h.length ∧
    (∀ i : Nat, (compactHistory h b)[i]? =
       if 1 ≤ i ∧ i < h.length - recentMessagesKeep then (h[i]?).map compactMiddleMessage
       else h[i]?) ∧
    (∀ m : Msg, ¬ (m.role = Role.tool ∧ truncatedResultSize < m.content.length) →
       compactMiddleMessage m = m) := by
  have hcomp : compactHistory h b =
      h.take 1 ++ ((h.drop 1).take (h.length - recentMessagesKeep - 1)).map compactMiddleMessage ++
        h.drop (h.length - recentMessagesKeep) := by
    unfold compactHistory
    rw [if_neg hb, if_neg (by omega)]
  have hA : (h.take 1).length = 1 := by
    rw [List.length_take]; omega
  have hB : (((h.drop 1).take (h.length - recentMessagesKeep - 1)).map compactMiddleMessage).length
      = h.length - recentMessagesKeep - 1 := by
    rw [List.length_map, List.length_take, List.length_drop]; omega
  refine ⟨?_, ?_, ?_⟩
  · rw [hcomp, List.length_append, List.length_append, hA, hB, List.length_drop]
    omega
  · intro i
    rw [hcomp]
    by_cases h0 : i = 0
    · subst h0
      rw [List.getElem?_append_left (by rw [List.length_append, hA, hB]; omega),
          List.getElem?_append_left (by rw [hA]; omega),
          List.getElem?_take_of_lt (by omega)]
      rw [if_neg (by omega)]
    · by_cases hmid : i < h.length - recentMessagesKeep
      · rw [List.getElem?_append_left (by rw [List.length_append, hA, hB]; omega),
            List.getElem?_append_right (by rw [hA]; omega), hA,
            List.getElem?_map,
            List.getElem?_take_of_lt (by omega),
            List.getElem?_drop]
        rw [if_pos ⟨by omega, hmid⟩]
        have he : 1 + (i - 1) = i := by omega
        rw [he]
      · rw [List.getElem?_append_right (by rw [List.length_append, hA, hB]; omega),
            List.length_append, hA, hB,
            List.getElem?_drop]
        rw [if_neg (by omega)]
        have he : h.length - recentMessagesKeep + (i - (1 + (h.length - recentMessagesKeep - 1))) = i := by
          omega
        rw [he]
  · intro m hm
    unfold compactMiddleMessage
    rw [if_neg hm]

set_option maxRecDepth 20000 in
set_option maxHeartbeats 1000000 in
/-- Witness for C4 at the concrete 8-message history `hBig` with budget 1. -/
theorem compact_middle_window_shape_wit :
    (compactHistory hBig 1).length = hBig.length :=
  (compact_middle_window_shape hBig 1 (by decide) (by decide)).1

theorem dropWhile_cons_not (p : Char → Bool) :
    ∀ (l : List Char) (x : Char) (xs : List Char), l.dropWhile p = x :: xs → p x = false := by
  intro l
  induction l with
  | nil => intro x xs hx; simp [List.dropWhile] at hx
  | cons c t ih =>
    intro x xs hx
    rw [List.dropWhile_cons] at hx
    by_cases hc : p c = true
    · rw [if_pos hc] at hx
      exact ih x xs hx
    · rw [if_neg hc] at hx
      cases hx
      simpa using hc

theorem dropWhile_eq_self_of_head (p : Char → Bool) (l : List Char)
    (hl : ∀ x xs, l = x :: xs → p x = false) : l.dropWhile p = l := by
  cases l with
  | nil => simp
  | cons c t =>
    rw [List.dropWhile_cons, if_neg (by simp [hl c t rfl])]

theorem dropWhile_idem (p : Char → Bool) (l : List Char) :
    (l.dropWhile p).dropWhile p = l.dropWhile p := by
  apply dropWhile_eq_self_of_head
  intro x xs hx
  exact dropWhile_cons_not p l x xs hx

theorem trimRightL_prefix (m : List Char) : trimRightL m <+: m := by
  unfold trimRightL
  have h := List.dropWhile_suffix (l := m.reverse) isUniSpaceB
  rw [← List.reverse_prefix] at h
  simpa using h

theorem trimLeftL_of_trimmed (l : List Char) :
    trimLeftL (trimRightL (trimLeftL l)) = trimRightL (trimLeftL l) := by
  apply dropWhile_eq_self_of_head
  intro x xs hx
  obtain ⟨t, ht⟩ := trimRightL_prefix (trimLeftL l)
  rw [hx] at ht
  have hd : trimLeftL l = x :: (xs ++ t) := by rw [← ht]; simp
  exact dropWhile_cons_not isUniSpaceB l x (xs ++ t) hd

theorem trimRightL_idem (l : List Char) : trimRightL (trimRightL l) = trimRightL l := by
  unfold trimRightL
  rw [List.reverse_reverse, dropWhile_idem]

theorem goTrimSpaceL_idem (l : List Char) : goTrimSpaceL (goTrimSpaceL l) = goTrimSpaceL l := by
  unfold goTrimSpaceL
  rw [trimLeftL_of_trimmed, trimRightL_idem]

theorem goTrimSpace_idem (s : String) : goTrimSpace (goTrimSpace s) = goTrimSpace s := by
  unfold goTrimSpace
  rw [show (String.mk (goTrimSpaceL s.data)).data = goTrimSpaceL s.data from rfl,
    goTrimSpaceL_idem]

theorem formatLs_trim (ls : String) :
    formatLsResultAsAnswer (goTrimSpace ls) = formatLsResultAsAnswer ls := by
  unfold formatLsResultAsAnswer
  rw [goTrimSpace_idem]

set_option maxRecDepth 8000 in
/-- Claim C1: whenever the turn has executed `ls` and the model's final text
is empty after trimming, or is itself an unexecuted inline tool-call pattern,
or textually claims emptiness (the `claimsNoEntries` substrings,
case-insensitively) while the last `ls` result is non-empty and not the
empty-directory sentinel, `coerceAgentFinalContent` returns the last `ls`
result rendered by `formatLsResultAsAnswer` — the bulleted listing headed
`Entries in the current directory:` — as the concrete conjunct shows for the
two-entry listing against the text `The directory is empty.`.  The function
is pure by construction: it reads only its two arguments. -/
theorem coerce_final_ls_render :
    (∀ (content : String) (execs : List toolExecRecord) (ls : String),
       lastToolResult execs "ls" = some ls →
       (goTrimSpace content = "" ∨ (parseInlineToolCall (goTrimSpace content)).isSome ∨
         (claimsNoEntries (goToLower (goTrimSpace content)) = true ∧
          goTrimSpace ls ≠ "" ∧ goTrimSpace ls ≠ "(empty directory)")) →
       coerceAgentFinalContent content execs = formatLsResultAsAnswer ls) ∧
    coerceAgentFinalContent "The directory is empty."
        [⟨"ls", "\x7b\x7d", "[FILE] a.txt\n[DIR] sub/"⟩] =
      "Entries in the current directory:\n- a.txt\n- sub/" := by
  constructor
  · intro content execs ls hls hcond
    unfold coerceAgentFinalContent
    by_cases hempty : goTrimSpace content = ""
    · rw [if_pos hempty, hls]
    · rw [if_neg hempty]
      by_cases hinl : (parseInlineToolCall (goTrimSpace content)).isSome
      · rw [if_pos hinl, hls]
      · rw [if_neg hinl]
        rcases hcond with hc | hc | ⟨hcl, hne, hns⟩
        · exact absurd hc hempty
        · exact absurd hc hinl
        · rw [if_pos hcl, hls]
          show (if goTrimSpace ls ≠ "" ∧ goTrimSpace ls ≠ "(empty directory)" then
              formatLsResultAsAnswer (goTrimSpace ls) else content) = formatLsResultAsAnswer ls
          rw [if_pos ⟨hne, hns⟩]
          exact formatLs_trim ls
  · decide

/-- Witness for C1: empty final text with a one-entry `ls` record. -/
theorem coerce_final_ls_render_wit :
    coerceAgentFinalContent "" [⟨"ls", "\x7b\x7d", "[FILE] b.txt"⟩] =
      formatLsResultAsAnswer "[FILE] b.txt" :=
  coerce_final_ls_render.1 "" [⟨"ls", "\x7b\x7d", "[FILE] b.txt"⟩] "[FILE] b.txt"
    (by decide) (Or.inl (by decide))

/-- The inline interpreter only ever yields one of the seven known tool
names: every branch of `parseInlineToolCall` that returns `some` has passed
the `isKnownToolName` check. -/
theorem inline_known_only (content : String) (n a : String)
    (hp : parseInlineToolCall content = some (n, a)) : isKnownToolName n = true := by
  unfold parseInlineToolCall at hp
  dsimp only [] at hp
  split at hp
  · exact absurd hp (by simp)
  · split at hp
    · exact absurd hp (by simp)
    · rename_i nameL argsL heq
      split at hp
      · exact absurd hp (by simp)
      · rename_i hknown
        split at hp
        · cases hp
          simpa using hknown
        · exact absurd hp (by simp)

/-- Claim C6 (amended): the inline fallback never yields a call whose name is
outside the seven known tools; structured tool-call lists, however, are
forwarded for execution verbatim without any name validation (the records
carry exactly the response's names), so the all-known guarantee holds for the
structured path only if the response already satisfies it — see the
counterexample. -/
theorem interpret_known_names_inline :
    (∀ (content n a : String),
       parseInlineToolCall content = some (n, a) → isKnownToolName n = true) ∧
    (∀ (execT : String → String → String) (resp : MResponse),
       (iterExecRecs execT resp).map toolExecRecord.name = resp.toolCalls.map ToolCall.name) := by
  constructor
  · exact inline_known_only
  · intro execT resp
    simp [iterExecRecs]

/-- Witness for the amended C6 at the inline call `ls` with empty object. -/
theorem interpret_known_names_inline_wit :
    isKnownToolName "ls" = true :=
  interpret_known_names_inline.1 "ls\x7b\x7d" "ls" "\x7b\x7d" (by decide)

/-- A model that first requests a structured call named `frobnicate` (not one
of the seven tools) and then stops. -/
def clientUnknown : List Msg → MResponse := fun h =>
  if h.length ≤ 3 then ⟨"", [⟨"1", "frobnicate", "\x7b\x7d"⟩]⟩ else ⟨"done", []⟩

/-- An executor echoing the unknown-tool error `tools.ExecuteTool` produces. -/
def execUnknownEcho : String → String → String := fun n _ => "error: unknown tool: " ++ n

set_option maxRecDepth 40000 in
set_option maxHeartbeats 1000000 in
/-- Claim C6 counterexample: a structured tool call named `frobnicate` is not
rejected — the orchestrator executes it and records it in the turn's
execution log, although the name is outside the seven known tools. -/
theorem structured_unknown_name_executed_cex :
    (sendMessageAgent clientUnknown execUnknownEcho 80000 [] "s" "u").execs.map
        toolExecRecord.name = ["frobnicate"] ∧
      isKnownToolName "frobnicate" = false :=
  ⟨rfl, by decide⟩

/-- Claim C8: the assistant message of an iteration has its content cleared
to the empty string exactly when the response carries structured tool calls
or matches the inline pattern, and in every branch of the loop body — the
iteration ceiling, the structured-execution branch, the inline-execution
branch, and finalization — the (possibly cleared) assistant message is
appended to the working history directly after the compacted history and
before the iteration's tool messages, i.e. before any tool execution of that
iteration is reflected in the state. -/
theorem assistant_append_order (client : List Msg → MResponse)
    (execT : String → String → String) (mt : Nat) :
    (∀ resp : MResponse,
       (resp.toolCalls ≠ [] ∨ (parseInlineToolCall resp.content).isSome) →
       (assistantMsgOf resp).content = "") ∧
    (∀ (fuel : Nat) (history : List Msg) (e : List toolExecRecord) (c : Nat)
       (resp : MResponse), resp = client (compactHistory history mt) →
       (fuel ≤ 1 →
          (agentLoop client execT mt fuel history e c).history =
            compactHistory history mt ++ [assistantMsgOf resp]) ∧
       (2 ≤ fuel → resp.toolCalls ≠ [] →
          agentLoop client execT mt fuel history e c =
            agentLoop client execT mt (fuel - 1)
              ((compactHistory history mt ++ [assistantMsgOf resp]) ++ iterToolMsgs execT resp)
              (e ++ iterExecRecs execT resp) (c + 1)) ∧
       (∀ n a, 2 ≤ fuel → resp.toolCalls = [] →
          parseInlineToolCall resp.content = some (n, a) →
          agentLoop client execT mt fuel history e c =
            agentLoop client execT mt (fuel - 1)
              ((compactHistory history mt ++ [assistantMsgOf resp]) ++
                [AssistantMessage ("Tool " ++ n ++ " result:\n" ++ execT n a)])
              (e ++ [⟨n, a, execT n a⟩]) (c + 1)) ∧
       (2 ≤ fuel → resp.toolCalls = [] → parseInlineToolCall resp.content = none →
          (agentLoop client execT mt fuel history e c).history =
            compactHistory history mt ++ [assistantMsgOf resp])) := by
  constructor
  · intro resp hr
    unfold assistantMsgOf
    simp only [hr, if_true]
  · intro fuel history e c resp hresp
    subst hresp
    refine ⟨?_, ?_, ?_, ?_⟩
    · intro hf
      match fuel, hf with
      | 0, _ => rw [agentLoop]
      | 1, _ => rw [agentLoop]
    · intro hf htc
      match fuel, hf with
      | f + 2, _ =>
        rw [agentLoop]
        rw [if_pos htc]
        rfl
    · intro n a hf htc hin
      match fuel, hf with
      | f + 2, _ =>
        rw [agentLoop]
        rw [if_neg (by simp [htc]), hin]
        rfl
    · intro hf htc hin
      match fuel, hf with
      | f + 2, _ =>
        rw [agentLoop]
        rw [if_neg (by simp [htc]), hin]

/-- Witness for C8: a response carrying a structured `ls` call is cleared. -/
theorem assistant_append_order_wit :
    (assistantMsgOf ⟨"ignore", [⟨"1", "ls", "\x7b\x7d"⟩]⟩).content = "" :=
  (assistant_append_order (fun _ => ⟨"", []⟩) (fun _ _ => "") 0).1
    ⟨"ignore", [⟨"1", "ls", "\x7b\x7d"⟩]⟩ (Or.inl (by decide))

theorem agentLoop_calls_always (client : List Msg → MResponse)
    (execT : String → String → String) (mt : Nat)
    (Hc : ∀ h, (client h).toolCalls ≠ [] ∨ (parseInlineToolCall (client h).content).isSome) :
    ∀ (fuel : Nat), 1 ≤ fuel → ∀ (h : List Msg) (e : List toolExecRecord) (c : Nat),
      (agentLoop client execT mt fuel h e c).clientCalls = c + fuel ∧
      ∃ hf, (agentLoop client execT mt fuel h e c).content =
        coerceAgentFinalContent ((client hf).content ++ stoppedNotice)
          (agentLoop client execT mt fuel h e c).execs
  | 0, h0 => absurd h0 (by omega)
  | 1, _ => by
    intro h e c
    constructor
    · rw [agentLoop]
    · refine ⟨compactHistory h mt, ?_⟩
      rw [agentLoop]
      show coerceAgentFinalContent
          (if (client (compactHistory h mt)).toolCalls ≠ [] ∨
              (parseInlineToolCall (client (compactHistory h mt)).content).isSome then
            (client (compactHistory h mt)).content ++ stoppedNotice
          else (client (compactHistory h mt)).content) e =
        coerceAgentFinalContent ((client (compactHistory h mt)).content ++ stoppedNotice) e
      rw [if_pos (Hc (compactHistory h mt))]
  | f + 2, _ => by
    intro h e c
    by_cases htc : (client (compactHistory h mt)).toolCalls = []
    · obtain ⟨⟨n, a⟩, hsome⟩ : ∃ p,
          parseInlineToolCall (client (compactHistory h mt)).content = some p :=
        Option.isSome_iff_exists.mp ((Hc (compactHistory h mt)).resolve_left (fun hne => hne htc))
      rw [agentLoop, if_neg (fun hne => hne htc), hsome]
      have IH := agentLoop_calls_always client execT mt Hc (f + 1) (by omega)
        (compactHistory h mt ++ [assistantMsgOf (client (compactHistory h mt))] ++
          [AssistantMessage ("Tool " ++ n ++ " result:\n" ++ execT n a)])
        (e ++ [⟨n, a, execT n a⟩]) (c + 1)
      refine ⟨?_, IH.2⟩
      rw [IH.1]
      omega
    · rw [agentLoop, if_pos htc]
      have IH := agentLoop_calls_always client execT mt Hc (f + 1) (by omega)
        (compactHistory h mt ++ [assistantMsgOf (client (compactHistory h mt))] ++
          iterToolMsgs execT (client (compactHistory h mt)))
        (e ++ iterExecRecs execT (client (compactHistory h mt))) (c + 1)
      refine ⟨?_, IH.2⟩
      rw [IH.1]
      omega

theorem agentLoop_execs_one_each (client : List Msg → MResponse)
    (execT : String → String → String) (mt : Nat)
    (Hc1 : ∀ h, ((client h).toolCalls).length = 1) :
    ∀ (fuel : Nat), 1 ≤ fuel → ∀ (h : List Msg) (e : List toolExecRecord) (c : Nat),
      (agentLoop client execT mt fuel h e c).execs.length = e.length + (fuel - 1)
  | 0, h0 => absurd h0 (by omega)
  | 1, _ => by
    intro h e c
    rw [agentLoop]
    show e.length = e.length + (1 - 1)
    omega
  | f + 2, _ => by
    intro h e c
    have htc : (client (compactHistory h mt)).toolCalls ≠ [] := by
      intro hnil
      have := Hc1 (compactHistory h mt)
      rw [hnil] at this
      simp at this
    rw [agentLoop, if_pos htc]
    have IH := agentLoop_execs_one_each client execT mt Hc1 (f + 1) (by omega)
      (compactHistory h mt ++ [assistantMsgOf (client (compactHistory h mt))] ++
        iterToolMsgs execT (client (compactHistory h mt)))
      (e ++ iterExecRecs execT (client (compactHistory h mt))) (c + 1)
    rw [IH, List.length_append]
    have hlen : (iterExecRecs execT (client (compactHistory h mt))).length = 1 := by
      unfold iterExecRecs
      rw [List.length_map]
      exact Hc1 (compactHistory h mt)
    rw [hlen]
    omega

theorem agentLoop_calls_le (client : List Msg → MResponse)
    (execT : String → String → String) (mt : Nat) :
    ∀ (fuel : Nat), 1 ≤ fuel → ∀ (h : List Msg) (e : List toolExecRecord) (c : Nat),
      (agentLoop client execT mt fuel h e c).clientCalls ≤ c + fuel
  | 0, h0 => absurd h0 (by omega)
  | 1, _ => by
    intro h e c
    rw [agentLoop]
  | f + 2, _ => by
    intro h e c
    by_cases htc : (client (compactHistory h mt)).toolCalls = []
    · cases hi : parseInlineToolCall (client (compactHistory h mt)).content with
      | none =>
        rw [agentLoop, if_neg (fun hne => hne htc), hi]
        show c + 1 ≤ c + (f + 2)
        omega
      | some p =>
        obtain ⟨n, a⟩ := p
        rw [agentLoop, if_neg (fun hne => hne htc), hi]
        show (agentLoop client execT mt (f + 1)
            (compactHistory h mt ++ [assistantMsgOf (client (compactHistory h mt))] ++
              [AssistantMessage ("Tool " ++ n ++ " result:\n" ++ execT n a)])
            (e ++ [⟨n, a, execT n a⟩]) (c + 1)).clientCalls ≤ c + (f + 2)
        have IH := agentLoop_calls_le client execT mt (f + 1) (by omega)
          (compactHistory h mt ++ [assistantMsgOf (client (compactHistory h mt))] ++
            [AssistantMessage ("Tool " ++ n ++ " result:\n" ++ execT n a)])
          (e ++ [⟨n, a, execT n a⟩]) (c + 1)
        omega
    · rw [agentLoop, if_pos htc]
      have IH := agentLoop_calls_le client execT mt (f + 1) (by omega)
        (compactHistory h mt ++ [assistantMsgOf (client (compactHistory h mt))] ++
          iterToolMsgs execT (client (compactHistory h mt)))
        (e ++ iterExecRecs execT (client (compactHistory h mt))) (c + 1)
      omega

/-- Claim C2: with a model that requests a tool call (structured or inline)
on every response, an agent-mode turn makes exactly `maxToolIterations` (15)
completion-client calls; the returned execution records are those of the
first 14 iterations only (one per iteration for single-call responses — the
final response's tool calls are not executed), and the final content is the
coercion rule applied to the final response content with the truncation
notice already appended.  For any model whatsoever the loop terminates
within `maxToolIterations` client calls. -/
theorem agent_iteration_ceiling (client : List Msg → MResponse)
    (execT : String → String → String) (mt : Nat) (prior : List Msg) (sys usr : String) :
    maxToolIterations = 15 ∧
    stoppedNotice = "\n\n*[Stopped after 15 tool iterations]*" ∧
    ((∀ h, (client h).toolCalls ≠ [] ∨ (parseInlineToolCall (client h).content).isSome) →
       (sendMessageAgent client execT mt prior sys usr).clientCalls = maxToolIterations ∧
       ∃ hf, (sendMessageAgent client execT mt prior sys usr).content =
         coerceAgentFinalContent ((client hf).content ++ stoppedNotice)
           (sendMessageAgent client execT mt prior sys usr).execs) ∧
    ((∀ h, ((client h).toolCalls).length = 1) →
       (sendMessageAgent client execT mt prior sys usr).execs.length = maxToolIterations - 1) ∧
    (sendMessageAgent client execT mt prior sys usr).clientCalls ≤ maxToolIterations := by
  refine ⟨rfl, rfl, ?_, ?_, ?_⟩
  · intro Hc
    have H := agentLoop_calls_always client execT mt Hc maxToolIterations (by decide)
      (SystemMessage sys :: (prior ++ [UserMessage usr])) [] 0
    constructor
    · show (agentLoop client execT mt maxToolIterations
          (SystemMessage sys :: (prior ++ [UserMessage usr])) [] 0).clientCalls =
        maxToolIterations
      rw [H.1]
      omega
    · exact H.2
  · intro Hc1
    have H := agentLoop_execs_one_each client execT mt Hc1 maxToolIterations (by decide)
      (SystemMessage sys :: (prior ++ [UserMessage usr])) [] 0
    show (agentLoop client execT mt maxToolIterations
        (SystemMessage sys :: (prior ++ [UserMessage usr])) [] 0).execs.length =
      maxToolIterations - 1
    rw [H]
    simp
  · have H := agentLoop_calls_le client execT mt maxToolIterations (by decide)
      (SystemMessage sys :: (prior ++ [UserMessage usr])) [] 0
    show (agentLoop client execT mt maxToolIterations
        (SystemMessage sys :: (prior ++ [UserMessage usr])) [] 0).clientCalls ≤
      maxToolIterations
    omega

/-- A model that always answers with one structured `ls` call. -/
def clientAlwaysLs : List Msg → MResponse := fun _ => ⟨"go", [⟨"1", "ls", "\x7b\x7d"⟩]⟩

/-- A stub executor returning a constant listing. -/
def execStubLs : String → String → String := fun _ _ => "[FILE] a.txt\n"

/-- Witness for C2: the always-calling model makes exactly 15 client calls. -/
theorem agent_iteration_ceiling_wit :
    (sendMessageAgent clientAlwaysLs execStubLs 80000 [] "s" "u").clientCalls =
      maxToolIterations :=
  ((agent_iteration_ceiling clientAlwaysLs execStubLs 80000 [] "s" "u").2.2.1
    (fun h => Or.inl (by simp [clientAlwaysLs]))).1

theorem regexSpace_uniSpace (c : Char) (h : isRegexSpaceB c = true) : isUniSpaceB c = true := by
  unfold isRegexSpaceB at h
  simp only [Bool.or_eq_true, decide_eq_true_eq] at h
  rcases h with ((((h|h)|h)|h)|h) <;> subst h <;> decide

theorem uniSpace_not_ident (c : Char) (h : isUniSpaceB c = true) : isIdentCharB c = false := by
  unfold isUniSpaceB at h
  simp only [Bool.or_eq_true, decide_eq_true_eq] at h
  rcases h with (((((((h|h)|h)|h)|h)|h)|h)|h) <;> subst h <;> decide

theorem ident_not_uniSpace (c : Char) (h : isIdentCharB c = true) : isUniSpaceB c = false := by
  cases hu : isUniSpaceB c with
  | false => rfl
  | true => rw [uniSpace_not_ident c hu] at h; exact absurd h (by simp)

theorem trimRightL_id_of_last (l : List Char)
    (hl : ∀ x, l.getLast? = some x → isUniSpaceB x = false) : trimRightL l = l := by
  unfold trimRightL
  rw [dropWhile_eq_self_of_head isUniSpaceB l.reverse (fun x xs hx => by
    apply hl
    rw [← List.head?_reverse, hx]
    rfl)]
  exact l.reverse_reverse

theorem trimLeftL_id_of_head (l : List Char)
    (hh : ∀ x xs, l = x :: xs → isUniSpaceB x = false) : trimLeftL l = l :=
  dropWhile_eq_self_of_head isUniSpaceB l hh

theorem goTrimSpaceL_id_of_ends (l : List Char)
    (hh : ∀ x xs, l = x :: xs → isUniSpaceB x = false)
    (hl : ∀ x, l.getLast? = some x → isUniSpaceB x = false) : goTrimSpaceL l = l := by
  unfold goTrimSpaceL
  rw [trimLeftL_id_of_head l hh, trimRightL_id_of_last l hl]

theorem takeWhile_nil_of_dropWhile_self (p : Char → Bool) (l : List Char)
    (h : l.dropWhile p = l) : l.takeWhile p = [] := by
  have hlen := congrArg List.length (List.takeWhile_append_dropWhile (p := p) (l := l))
  rw [List.length_append, h] at hlen
  have : (l.takeWhile p).length = 0 := by omega
  exact List.eq_nil_of_length_eq_zero this

theorem trim_no_leading (l : List Char) (x : Char) (xs : List Char)
    (hx : goTrimSpaceL l = x :: xs) : isUniSpaceB x = false := by
  obtain ⟨t, ht⟩ := trimRightL_prefix (trimLeftL l)
  unfold goTrimSpaceL at hx
  rw [hx] at ht
  have hd : trimLeftL l = x :: (xs ++ t) := by rw [← ht]; simp
  exact dropWhile_cons_not isUniSpaceB l x (xs ++ t) hd

theorem trim_no_trailing (l : List Char) (x : Char)
    (hx : (goTrimSpaceL l).getLast? = some x) : isUniSpaceB x = false := by
  unfold goTrimSpaceL trimRightL at hx
  rw [List.getLast?_reverse] at hx
  cases hd : (trimLeftL l).reverse.dropWhile isUniSpaceB with
  | nil => rw [hd] at hx; exact absurd hx (by simp)
  | cons y ys =>
    rw [hd] at hx
    have : y = x := by simpa using hx
    subst this
    exact dropWhile_cons_not isUniSpaceB (trimLeftL l).reverse y ys hd

theorem matchInline_inv (s nameL argsL : List Char)
    (hm : matchInline s = some (nameL, argsL)) :
    ∃ lead ws tail,
      (∀ x ∈ lead, isRegexSpaceB x = true) ∧
      (∀ x ∈ ws, isRegexSpaceB x = true) ∧
      (∀ x ∈ tail, isRegexSpaceB x = true) ∧
      s = lead ++ (nameL ++ (ws ++ (argsL ++ tail))) ∧
      (∀ x ∈ nameL, isIdentCharB x = true) ∧
      argsL.head? = some '{' ∧
      argsL.getLast? = some '}' := by
  unfold matchInline at hm
  dsimp only [] at hm
  split at hm
  · exact absurd hm (by simp)
  · rename_i c rest hd
    split at hm
    · rename_i ha
      split at hm
      · rename_i r2 hs2
        split at hm
        · rename_i i hfc
          injection hm with hpair
          have hn : nameL = c :: rest.takeWhile isIdentCharB := by
            have := congrArg Prod.fst hpair
            exact this.symm
          have hA : argsL = '{' :: r2.take (i + 1) := by
            have := congrArg Prod.snd hpair
            exact this.symm
          unfold findCloseIdx at hfc
          have hmem := List.mem_of_getLast?_eq_some hfc
          rw [List.mem_filter] at hmem
          obtain ⟨hrange, hpred⟩ := hmem
          rw [List.mem_range] at hrange
          rw [Bool.and_eq_true] at hpred
          obtain ⟨hclose, htail⟩ := hpred
          have hclose2 : r2.getD i ' ' = '}' := by simpa using hclose
          have htail2 : ∀ x ∈ r2.drop (i + 1), isRegexSpaceB x = true := by
            simpa using htail
          have hi : i < r2.length :=
            lt_of_lt_of_le hrange (List.takeWhile_prefix _).length_le
          refine ⟨s.takeWhile isRegexSpaceB,
            (rest.dropWhile isIdentCharB).takeWhile isRegexSpaceB,
            r2.drop (i + 1), ?_, ?_, ?_, ?_, ?_, ?_, ?_⟩
          · intro x hx; exact List.mem_takeWhile_imp hx
          · intro x hx; exact List.mem_takeWhile_imp hx
          · exact htail2
          · conv_lhs => rw [← List.takeWhile_append_dropWhile (p := isRegexSpaceB) (l := s), hd]
            congr 1
            rw [hn]
            simp only [List.cons_append]
            congr 1
            conv_lhs => rw [← List.takeWhile_append_dropWhile (p := isIdentCharB) (l := rest)]
            congr 1
            conv_lhs =>
              rw [← List.takeWhile_append_dropWhile (p := isRegexSpaceB)
                    (l := rest.dropWhile isIdentCharB), hs2]
            congr 1
            rw [hA]
            simp only [List.cons_append]
            congr 1
            exact (List.take_append_drop (i + 1) r2).symm
          · intro x hx
            rw [hn] at hx
            rcases List.mem_cons.mp hx with hx | hx
            · subst hx
              unfold isIdentCharB
              rw [ha]
              simp
            · exact List.mem_takeWhile_imp hx
          · rw [hA]; rfl
          · rw [hA]
            have hsome : r2[i]? = some (r2.getD i ' ') := by
              rw [List.getElem?_eq_getElem hi]
              rw [List.getD_eq_getElem?_getD, List.getElem?_eq_getElem hi]
              rfl
            have ht : r2.take (i + 1) = r2.take i ++ [r2.getD i ' '] := by
              rw [List.take_succ, hsome]
              rfl
            rw [ht, hclose2, ← List.cons_append, List.getLast?_concat]
        · exact absurd hm (by simp)
      · exact absurd hm (by simp)
    · exact absurd hm (by simp)

theorem parseInline_inv (content n a : String)
    (hp : parseInlineToolCall content = some (n, a)) :
    ∃ nameL argsL, matchInline (goTrimSpace content).data = some (nameL, argsL) ∧
      n = goTrimSpace (String.mk nameL) ∧ a = goTrimSpace (String.mk argsL) ∧
      isKnownToolName n = true ∧ goUnmarshalKind a.data = some GoJsonKind.objK := by
  unfold parseInlineToolCall at hp
  dsimp only [] at hp
  split at hp
  · exact absurd hp (by simp)
  · split at hp
    · exact absurd hp (by simp)
    · rename_i nameL argsL heq
      split at hp
      · exact absurd hp (by simp)
      · rename_i hknown
        split at hp
        · rename_i hobj
          injection hp with hpair
          have hn : n = goTrimSpace (String.mk nameL) := (congrArg Prod.fst hpair).symm
          have hA : a = goTrimSpace (String.mk argsL) := (congrArg Prod.snd hpair).symm
          refine ⟨nameL, argsL, heq, hn, hA, ?_, ?_⟩
          · rw [hn]
            by_cases hk : isKnownToolName (goTrimSpace (String.mk nameL)) = true
            · exact hk
            · exact absurd (by simpa using hk) hknown
          · rw [hA]
            exact hobj
        · exact absurd hp (by simp)

/-- Claim C7 (amended): the inline fallback recognizes a call only when the
entire trimmed content is a known-tool identifier, optional `\s` whitespace,
and a single-line brace-delimited payload that `json.Unmarshal` decodes to a
JSON object, with no other characters; unknown identifiers, malformed JSON
and non-object payloads are rejected (any recognized call satisfies the name
and object conditions), at most one inline call is recognized per response
(the return type is a single optional call), and concatenated inline calls
yield none, as the second conjunct shows. -/
theorem inline_match_shape :
    (∀ (content n a : String), parseInlineToolCall content = some (n, a) →
       isKnownToolName n = true ∧
       goUnmarshalKind a.data = some GoJsonKind.objK ∧
       ∃ ws : List Char, (∀ x ∈ ws, isRegexSpaceB x = true) ∧
         (goTrimSpace content).data = n.data ++ ws ++ a.data) ∧
    parseInlineToolCall "ls\x7b\x7dls\x7b\x7d" = none := by
  constructor
  · intro content n a hp
    obtain ⟨nameL, argsL, hmatch, hn, hA, hknown, hobj⟩ := parseInline_inv content n a hp
    obtain ⟨lead, ws, tail, hlead, hws, htail, hseq, hident, hhead, hlast⟩ :=
      matchInline_inv _ nameL argsL hmatch
    have hnL : goTrimSpaceL nameL = nameL :=
      goTrimSpaceL_id_of_ends nameL
        (fun x xs hx => ident_not_uniSpace x (hident x (by rw [hx]; exact List.mem_cons_self x xs)))
        (fun x hx => ident_not_uniSpace x (hident x (List.mem_of_getLast?_eq_some hx)))
    have hnd : n.data = nameL := by
      rw [hn]
      show goTrimSpaceL nameL = nameL
      exact hnL
    have haL : goTrimSpaceL argsL = argsL :=
      goTrimSpaceL_id_of_ends argsL
        (fun x xs hx => by
          rw [hx] at hhead
          have : x = '{' := by simpa using hhead
          subst this
          decide)
        (fun x hx => by
          rw [hlast] at hx
          have : '}' = x := by simpa using hx
          subst this
          decide)
    have had : a.data = argsL := by
      rw [hA]
      show goTrimSpaceL argsL = argsL
      exact haL
    have hlead_nil : lead = [] := by
      cases hld : lead with
      | nil => rfl
      | cons x xs =>
        exfalso
        have hx_space := regexSpace_uniSpace x (hlead x (by rw [hld]; exact List.mem_cons_self x xs))
        have hx_ns := trim_no_leading content.data x
          (xs ++ (nameL ++ (ws ++ (argsL ++ tail))))
          (by rw [show goTrimSpaceL content.data = (goTrimSpace content).data from rfl, hseq, hld]
              simp)
        rw [hx_ns] at hx_space
        exact absurd hx_space (by simp)
    have htail_nil : tail = [] := by
      cases htl : tail with
      | nil => rfl
      | cons x xs =>
        exfalso
        have htl_ne : tail ≠ [] := by rw [htl]; simp
        obtain ⟨y, hy⟩ : ∃ y, tail.getLast? = some y := by
          cases hgl : tail.getLast? with
          | none => exact absurd (List.getLast?_eq_none_iff.mp hgl) htl_ne
          | some y => exact ⟨y, rfl⟩
        have hy_space := regexSpace_uniSpace y (htail y (List.mem_of_getLast?_eq_some hy))
        have hy_ns := trim_no_trailing content.data y
          (by rw [show goTrimSpaceL content.data = (goTrimSpace content).data from rfl, hseq]
              simp [List.getLast?_append, hy, htl_ne])
        rw [hy_ns] at hy_space
        exact absurd hy_space (by simp)
    refine ⟨hknown, hobj, ws, hws, ?_⟩
    rw [hnd, had]
    rw [hlead_nil, htail_nil] at hseq
    simpa [List.append_assoc] using hseq
  · decide

/-- Claim C7 counterexample: `ls \x7b\x7d` (a space between the identifier
and the JSON object) is recognized although the trimmed content is not
literally `<identifier><JSON object>` with no other characters — the regexp
allows `\s*` between the two. -/
theorem inline_space_between_cex :
    parseInlineToolCall "ls \x7b\x7d" = some ("ls", "\x7b\x7d") ∧
      goTrimSpace "ls \x7b\x7d" ≠ "ls" ++ "\x7b\x7d" := by
  constructor
  · decide
  · decide

/-- Witness for the amended C7 at the inline call `ls\x7b\x7d`. -/
theorem inline_match_shape_wit :
    isKnownToolName "ls" = true ∧
      goUnmarshalKind ("\x7b\x7d" : String).data = some GoJsonKind.objK ∧
      ∃ ws : List Char, (∀ x ∈ ws, isRegexSpaceB x = true) ∧
        (goTrimSpace "ls\x7b\x7d").data = ("ls" : String).data ++ ws ++ ("\x7b\x7d" : String).data :=
  inline_match_shape.1 "ls\x7b\x7d" "ls" "\x7b\x7d" (by decide)

end Arcane
